import Mathlib

/-!
Verification of the MANP (Minimal Arithmetic Noise Padding) analysis of the
Concrete compiler (MANP.cpp, dialect HLFHE).  The analysis computes, for every
encrypted value of a function, an exact squared 2-norm bound using the LLVM
arbitrary-precision integer type APInt, and reports its ceiling square root.

The embedding models an APInt as a bit width together with a natural-number
value; every arithmetic operation reduces modulo 2 to the result width, exactly
as LLVM APInt wraps.  The helper functions of MANP.cpp (APIntWidthExtendUAdd,
APIntWidthExtendUMul, APIntWidthExtendUSq, APIntWidthExtendULT, APIntCeilSqrt,
ceilLog2, denseCstTensorNorm2Sq, denseDynTensorNorm2Sq, conservativeIntNorm2Sq,
the per-operator getSqMANP overloads and MANPAnalysis.visitOperation) are
translated one by one.
-/

/-- Model of llvm.APInt: a bit width and a value.  A well-formed APInt
(predicate wf below) stores a value below 2 to the width. -/
structure APInt where
  width : Nat
  val : Nat
deriving DecidableEq, Repr

/-- Well-formedness of an APInt: the stored value fits in the bit width. -/
abbrev APInt.wf (a : APInt) : Prop := a.val < 2 ^ a.width

/-- Zero extension (llvm APInt.zext): the value is kept, the width changes.
The LLVM implementation asserts that the target width is not smaller than the
current width; all call sites in MANP.cpp satisfy this. -/
def APInt.zext (a : APInt) (w : Nat) : APInt := ⟨w, a.val⟩

/-- Same-width addition of llvm APInt values: wraps modulo 2 to the width. -/
def APInt.add (a b : APInt) : APInt := ⟨a.width, (a.val + b.val) % 2 ^ a.width⟩

/-- Same-width multiplication of llvm APInt values: wraps modulo 2 to the
width. -/
def APInt.mul (a b : APInt) : APInt := ⟨a.width, (a.val * b.val) % 2 ^ a.width⟩

/-- Left shift of an llvm APInt: wraps modulo 2 to the width. -/
def APInt.shl (a : APInt) (n : Nat) : APInt :=
  ⟨a.width, (a.val <<< n) % 2 ^ a.width⟩

/-- Unsigned less-than on llvm APInt values of equal width. -/
def APInt.ult (a b : APInt) : Bool := decide (a.val < b.val)

/-- llvm APInt.getMaxValue: the all-ones value of the given width. -/
def APInt.getMaxValue (w : Nat) : APInt := ⟨w, 2 ^ w - 1⟩

/-- Modelled from the spec: the exact integer square root primitive
(llvm APInt.sqrt) used by APIntCeilSqrt lives in the LLVM library, outside this
repository.  The spec describes the computation as a truncated (floor) integer
square root followed by a correction step, so the primitive is modelled as the
floor square root of the value, at the same bit width. -/
def APInt.sqrt (a : APInt) : APInt := ⟨a.width, Nat.sqrt a.val⟩

/-- MANP.cpp APIntWidthExtendULT: compare two positive values after
zero-extending the narrower one to the width of the wider one. -/
def APIntWidthExtendULT (lhs rhs : APInt) : Bool :=
  if lhs.width < rhs.width then (lhs.zext rhs.width).ult rhs
  else if lhs.width > rhs.width then lhs.ult (rhs.zext lhs.width)
  else lhs.ult rhs

/-- MANP.cpp APIntWidthExtendUAdd: add two positive values after extending
both to one bit more than the wider width, so the sum cannot wrap. -/
def APIntWidthExtendUAdd (lhs rhs : APInt) : APInt :=
  let maxBits := max lhs.width rhs.width
  let targetWidth := maxBits + 1
  (lhs.zext targetWidth).add (rhs.zext targetWidth)

/-- MANP.cpp APIntWidthExtendUMul: multiply two positive values after
extending both to the sum of the widths, so the product cannot wrap. -/
def APIntWidthExtendUMul (lhs rhs : APInt) : APInt :=
  let targetWidth := lhs.width + rhs.width
  (lhs.zext targetWidth).mul (rhs.zext targetWidth)

/-- MANP.cpp APIntWidthExtendUSq: square a value after extending it to twice
its width, so the square cannot wrap. -/
def APIntWidthExtendUSq (i : APInt) : APInt :=
  let ie := i.zext (2 * i.width)
  ie.mul ie

/-- MANP.cpp APIntCeilSqrt: integer square root rounded upwards, implemented
as the square root primitive followed by an increment when the square of the
root falls short of the argument. -/
def APIntCeilSqrt (i : APInt) : APInt :=
  let res := i.sqrt
  let resSq := APIntWidthExtendUSq res
  if APIntWidthExtendULT resSq i then APIntWidthExtendUAdd res ⟨1, 1⟩
  else res

/-- MANP.cpp ceilLog2, instantiated at T = uint64: the while loop computes the
floor base-2 logarithm, and the mask test rounds up to the next power of two
when any bit other than the most significant set bit is set.  The C bitwise
complement is the complement within 64 bits, written here as an XOR against
the all-ones 64-bit pattern. -/
def ceilLog2 (v : Nat) : Nat :=
  let log2 := Nat.log2 v
  if v &&& ((2 ^ 64 - 1) ^^^ (1 <<< log2)) ≠ 0 then log2 + 1 else log2

section BasicLemmas

theorem APInt.ult_iff (a b : APInt) : a.ult b = true ↔ a.val < b.val := by
  simp [APInt.ult]

theorem APIntWidthExtendULT_iff (a b : APInt) :
    APIntWidthExtendULT a b = true ↔ a.val < b.val := by
  unfold APIntWidthExtendULT
  split <;> [skip; split] <;> simp [APInt.ult, APInt.zext]

theorem APIntWidthExtendUAdd_width (a b : APInt) :
    (APIntWidthExtendUAdd a b).width = max a.width b.width + 1 := rfl

theorem APIntWidthExtendUAdd_val (a b : APInt) (ha : a.wf) (hb : b.wf) :
    (APIntWidthExtendUAdd a b).val = a.val + b.val := by
  show (a.val + b.val) % 2 ^ (max a.width b.width + 1) = a.val + b.val
  apply Nat.mod_eq_of_lt
  have h1 : a.val < 2 ^ max a.width b.width :=
    lt_of_lt_of_le ha (Nat.pow_le_pow_right (by norm_num) (le_max_left _ _))
  have h2 : b.val < 2 ^ max a.width b.width :=
    lt_of_lt_of_le hb (Nat.pow_le_pow_right (by norm_num) (le_max_right _ _))
  calc a.val + b.val < 2 ^ max a.width b.width + 2 ^ max a.width b.width :=
        Nat.add_lt_add h1 h2
    _ = 2 ^ (max a.width b.width + 1) := by ring

theorem APIntWidthExtendUMul_width (a b : APInt) :
    (APIntWidthExtendUMul a b).width = a.width + b.width := rfl

theorem APIntWidthExtendUMul_val (a b : APInt) (ha : a.wf) (hb : b.wf) :
    (APIntWidthExtendUMul a b).val = a.val * b.val := by
  show (a.val * b.val) % 2 ^ (a.width + b.width) = a.val * b.val
  apply Nat.mod_eq_of_lt
  calc a.val * b.val < 2 ^ a.width * 2 ^ b.width :=
        Nat.mul_lt_mul'' ha hb
    _ = 2 ^ (a.width + b.width) := (pow_add 2 a.width b.width).symm

theorem APIntWidthExtendUSq_width (a : APInt) :
    (APIntWidthExtendUSq a).width = 2 * a.width := rfl

theorem APIntWidthExtendUSq_val (a : APInt) (ha : a.wf) :
    (APIntWidthExtendUSq a).val = a.val * a.val := by
  show (a.val * a.val) % 2 ^ (2 * a.width) = a.val * a.val
  apply Nat.mod_eq_of_lt
  calc a.val * a.val < 2 ^ a.width * 2 ^ a.width := Nat.mul_lt_mul'' ha ha
    _ = 2 ^ (2 * a.width) := by rw [← pow_add]; ring_nf

theorem APIntWidthExtendUAdd_wf (a b : APInt) :
    (APIntWidthExtendUAdd a b).wf := by
  show (a.val + b.val) % 2 ^ (max a.width b.width + 1) < _
  exact Nat.mod_lt _ (Nat.pos_pow_of_pos _ (by norm_num))

theorem APIntWidthExtendUMul_wf (a b : APInt) :
    (APIntWidthExtendUMul a b).wf := by
  show (a.val * b.val) % 2 ^ (a.width + b.width) < _
  exact Nat.mod_lt _ (Nat.pos_pow_of_pos _ (by norm_num))

theorem APIntWidthExtendUSq_wf (a : APInt) :
    (APIntWidthExtendUSq a).wf := by
  show (a.val * a.val) % 2 ^ (2 * a.width) < _
  exact Nat.mod_lt _ (Nat.pos_pow_of_pos _ (by norm_num))

end BasicLemmas

/-!
Operand models.  In MANP.cpp a plaintext operand of an arithmetic operation is
either defined by an mlir.ConstantOp, in which case the rule reads the literal
payload, or it is dynamic, in which case only the bit width of its signless
integer type is available.  Likewise, the plaintext vector of a dot operation
is either a dense constant tensor, whose element values are read, or a dynamic
statically shaped one-dimensional tensor of signless integers, of which only
the element bit width and the element count are known.
-/

/-- A plaintext scalar integer operand: a compile-time constant carrying its
literal value, or a dynamic value of which only the bit width is known. -/
inductive IntOperand where
  | cst (value : APInt)
  | dyn (bitWidth : Nat)
deriving DecidableEq, Repr

/-- Type of a statically shaped one-dimensional tensor of signless integers:
element bit width and number of elements (the assertions of
denseDynTensorNorm2Sq restrict the type to exactly this shape). -/
structure TensorTy where
  elemWidth : Nat
  numElements : Nat
deriving DecidableEq, Repr

/-- A plaintext vector operand of a dot operation: a dense compile-time
constant listing its elements, or a dynamic tensor of which only the type is
known. -/
inductive TensorOperand where
  | cst (values : List APInt)
  | dyn (ty : TensorTy)
deriving DecidableEq, Repr

/-- MANP.cpp denseCstTensorNorm2Sq: squared 2-norm of a dense constant tensor
of signless integers, accumulated with exact width-extending additions
starting from the one-bit zero. -/
def denseCstTensorNorm2Sq (denseVals : List APInt) : APInt :=
  denseVals.foldl
    (fun accu v => APIntWidthExtendUAdd accu (APIntWidthExtendUSq v)) ⟨1, 0⟩

/-- MANP.cpp denseDynTensorNorm2Sq: squared 2-norm of a dynamic 1D tensor,
conservatively taking every element to be the all-ones value of the element
width; the element count is stored in an APInt of ceilLog2(count + 1) bits. -/
def denseDynTensorNorm2Sq (tTy : TensorTy) : APInt :=
  let maxVal := APInt.getMaxValue tTy.elemWidth
  let maxValSq := APIntWidthExtendUSq maxVal
  let nElts := tTy.numElements
  let nEltsBits := ceilLog2 (nElts + 1)
  let nEltsAP : APInt := ⟨nEltsBits, nElts % 2 ^ nEltsBits⟩
  APIntWidthExtendUMul maxValSq nEltsAP

/-- MANP.cpp conservativeIntNorm2Sq: squared 2-norm for a dynamic scalar
integer of the given width, built as the square of a one shifted left by the
width inside an APInt of width plus one bits. -/
def conservativeIntNorm2Sq (width : Nat) : APInt :=
  let maxVal : APInt := ⟨width + 1, 1⟩
  let maxVal := maxVal.shl width
  APIntWidthExtendUSq maxVal

/-!
Per-operator rules.  Each getSqMANP overload of MANP.cpp receives the
operation and the lattice values of its operands; a lattice value is an
optional APInt (the squared MANP when already computed).  Assertions of the
C++ code are modelled by returning none.
-/

/-- MANP.cpp getSqMANP for HLFHE.dot_eint_int: asserts that the encrypted
vector operand is a block argument, then uses the exact squared 2-norm when
the plaintext vector is a dense constant and the conservative dynamic bound
otherwise.  The operand lattice values are received but never read. -/
def getSqMANP_Dot (encIsBlockArg : Bool) (plaintext : TensorOperand)
    (operandMANPs : List (Option APInt)) : Option APInt :=
  if encIsBlockArg then
    some (match plaintext with
      | .cst values => denseCstTensorNorm2Sq values
      | .dyn tTy => denseDynTensorNorm2Sq tTy)
  else none

/-- MANP.cpp getSqMANP for HLFHE.add_eint_int: asserts two operand lattice
values with the first (encrypted operand) present, squares the plaintext
operand (exactly for a constant, conservatively for a dynamic value) and adds
the squared norm of the encrypted operand. -/
def getSqMANP_AddEintIntOp (intOperand : IntOperand)
    (operandMANPs : List (Option APInt)) : Option APInt :=
  match operandMANPs with
  | [some eNorm, _] =>
    let sqNorm := match intOperand with
      | .cst value => APIntWidthExtendUSq value
      | .dyn w => conservativeIntNorm2Sq w
    some (APIntWidthExtendUAdd sqNorm eNorm)
  | _ => none

/-- MANP.cpp getSqMANP for HLFHE.add_eint: asserts both operand lattice values
present and adds them exactly. -/
def getSqMANP_AddEintOp (operandMANPs : List (Option APInt)) : Option APInt :=
  match operandMANPs with
  | [some a, some b] => some (APIntWidthExtendUAdd a b)
  | _ => none

/-- MANP.cpp getSqMANP for HLFHE.sub_int_eint: the plaintext operand comes
first and the encrypted operand second; the rule is otherwise that of
add_eint_int, the sign being irrelevant to the norm. -/
def getSqMANP_SubIntEintOp (intOperand : IntOperand)
    (operandMANPs : List (Option APInt)) : Option APInt :=
  match operandMANPs with
  | [_, some eNorm] =>
    let sqNorm := match intOperand with
      | .cst value => APIntWidthExtendUSq value
      | .dyn w => conservativeIntNorm2Sq w
    some (APIntWidthExtendUAdd sqNorm eNorm)
  | _ => none

/-- MANP.cpp getSqMANP for HLFHE.mul_eint_int: like add_eint_int but the
squared plaintext norm multiplies the squared norm of the encrypted
operand. -/
def getSqMANP_MulEintIntOp (intOperand : IntOperand)
    (operandMANPs : List (Option APInt)) : Option APInt :=
  match operandMANPs with
  | [some eNorm, _] =>
    let sqNorm := match intOperand with
      | .cst value => APIntWidthExtendUSq value
      | .dyn w => conservativeIntNorm2Sq w
    some (APIntWidthExtendUMul sqNorm eNorm)
  | _ => none

/-!
Lattice seeding and the driver.
-/

/-- Model of the mlir types the seeding logic inspects: the HLFHE encrypted
integer type, tensor types with their element type, plain integer types and
anything else. -/
inductive MlirType where
  | encryptedInteger (width : Nat)
  | tensor (elementType : MlirType)
  | integer (width : Nat)
  | other
deriving DecidableEq, Repr

/-- The type test of MANPLatticeValue.getPessimisticValueState: an encrypted
integer type, or a tensor type whose element type is an encrypted integer
type. -/
def isEncryptedValueType : MlirType → Bool
  | .encryptedInteger _ => true
  | .tensor (.encryptedInteger _) => true
  | _ => false

/-- A value of the program graph as seen by the seeding logic: whether it is a
block argument, and its type. -/
structure MlirValue where
  isBlockArgument : Bool
  type : MlirType
deriving DecidableEq, Repr

/-- MANPLatticeValue.getPessimisticValueState: a block argument of encrypted
type (scalar or tensor of encrypted scalars) is seeded with the one-bit APInt
of value 1; every other value starts with no norm. -/
def getPessimisticValueState (value : MlirValue) : Option APInt :=
  if value.isBlockArgument && isEncryptedValueType value.type then
    some ⟨1, 1⟩
  else none

/-- An HLFHE-dialect operation together with the operand data its rule
reads. -/
inductive HLFHEOp where
  | dot (encIsBlockArg : Bool) (plaintext : TensorOperand)
  | addEintInt (intOperand : IntOperand)
  | addEint
  | subIntEint (intOperand : IntOperand)
  | mulEintInt (intOperand : IntOperand)
  | zeroEint
  | applyLookupTable
  | unsupported (name : String)
deriving DecidableEq, Repr

/-- An operation as dispatched by MANPAnalysis.visitOperation: an HLFHE
operation, an mlir.ConstantOp, or an operation of some other dialect. -/
inductive Op where
  | hlfhe (o : HLFHEOp)
  | constant
  | otherDialect (name : String)
deriving DecidableEq, Repr

/-- Outcome of MANPAnalysis.visitOperation for one operation: the result
lattice value is set and the MANP attribute (the ceiling square root of the
squared norm) is attached; or the operation is a dummy and no norm is
recorded; or the analysis aborts with a diagnostic naming an unsupported
operation; or an assertion of a rule fails. -/
inductive VisitResult where
  | annotated (norm2SqEquiv : APInt) (manp : APInt)
  | dummy
  | unsupportedAbort (opName : String)
  | assertFailure
deriving DecidableEq, Repr

/-- True exactly on the dummy outcome. -/
def VisitResult.isDummy : VisitResult → Bool
  | .dummy => true
  | _ => false

/-- MANPAnalysis.visitOperation: dispatch on the operation kind in the order
of the C++ dynamic type tests, apply the matching rule, and for a tracked
operation record the squared norm and its ceiling square root; a constant or
an operation of a foreign dialect is a dummy; an HLFHE operation matching no
rule raises a diagnostic naming it and aborts. -/
def visitOperation : Op → List (Option APInt) → VisitResult
  | .hlfhe (.dot b pt), operands =>
    match getSqMANP_Dot b pt operands with
    | some n => .annotated n (APIntCeilSqrt n)
    | none => .assertFailure
  | .hlfhe (.addEintInt i), operands =>
    match getSqMANP_AddEintIntOp i operands with
    | some n => .annotated n (APIntCeilSqrt n)
    | none => .assertFailure
  | .hlfhe .addEint, operands =>
    match getSqMANP_AddEintOp operands with
    | some n => .annotated n (APIntCeilSqrt n)
    | none => .assertFailure
  | .hlfhe (.subIntEint i), operands =>
    match getSqMANP_SubIntEintOp i operands with
    | some n => .annotated n (APIntCeilSqrt n)
    | none => .assertFailure
  | .hlfhe (.mulEintInt i), operands =>
    match getSqMANP_MulEintIntOp i operands with
    | some n => .annotated n (APIntCeilSqrt n)
    | none => .assertFailure
  | .hlfhe .zeroEint, _ => .annotated ⟨1, 1⟩ (APIntCeilSqrt ⟨1, 1⟩)
  | .hlfhe .applyLookupTable, _ => .annotated ⟨1, 1⟩ (APIntCeilSqrt ⟨1, 1⟩)
  | .hlfhe (.unsupported name), _ => .unsupportedAbort name
  | .constant, _ => .dummy
  | .otherDialect _, _ => .dummy

section HelperLemmas

theorem ceilLog2_eq (v : Nat) :
    ceilLog2 v =
      if v &&& ((2 ^ 64 - 1) ^^^ (1 <<< Nat.log2 v)) ≠ 0 then Nat.log2 v + 1
      else Nat.log2 v := rfl

/-- The element count fits in ceilLog2 of the count plus one bits, which is
what makes the dynamic dot rule exact: this is width-for-count of the spec. -/
theorem lt_two_pow_ceilLog2_succ (n : Nat) (h : n + 1 < 2 ^ 64) :
    n < 2 ^ ceilLog2 (n + 1) := by
  have hv0 : n + 1 ≠ 0 := by omega
  rw [ceilLog2_eq]
  by_cases hc : (n + 1) &&& ((2 ^ 64 - 1) ^^^ (1 <<< Nat.log2 (n + 1))) ≠ 0
  · rw [if_pos hc]
    have hlt : n + 1 < 2 ^ (Nat.log2 (n + 1) + 1) :=
      (Nat.log2_lt hv0).mp (Nat.lt_succ_self _)
    omega
  · rw [if_neg hc]
    push_neg at hc
    have h2l : 2 ^ Nat.log2 (n + 1) ≤ n + 1 := (Nat.le_log2 hv0).mp (le_refl _)
    have hl64 : Nat.log2 (n + 1) < 64 := by
      by_contra hge
      push_neg at hge
      have : (2 : Nat) ^ 64 ≤ 2 ^ Nat.log2 (n + 1) :=
        Nat.pow_le_pow_right (by norm_num) hge
      omega
    have hbits : ∀ i, i ≠ Nat.log2 (n + 1) → (n + 1).testBit i = false := by
      intro i hi
      by_cases hi64 : i < 64
      · have hbit := congrArg (fun x => Nat.testBit x i) hc
        simp only [Nat.testBit_and, Nat.testBit_xor, Nat.zero_testBit,
          Nat.one_shiftLeft, Nat.testBit_two_pow_sub_one,
          Nat.testBit_two_pow] at hbit
        have hne : ¬ (Nat.log2 (n + 1) = i) := fun hEq => hi hEq.symm
        simp [hi64, hne] at hbit
        exact hbit
      · exact Nat.testBit_lt_two_pow
          (lt_of_lt_of_le h (Nat.pow_le_pow_right (by norm_num) (by omega)))
    have hveq : n + 1 = 2 ^ Nat.log2 (n + 1) := by
      by_cases hbl : (n + 1).testBit (Nat.log2 (n + 1)) = true
      · apply Nat.eq_of_testBit_eq
        intro i
        by_cases hil : i = Nat.log2 (n + 1)
        · rw [hil, hbl, Nat.testBit_two_pow_self]
        · rw [hbits i hil,
            Nat.testBit_two_pow_of_ne (fun hEq => hil hEq.symm)]
      · exfalso
        have hzero : n + 1 = 0 := by
          apply Nat.eq_of_testBit_eq
          intro i
          rw [Nat.zero_testBit]
          by_cases hil : i = Nat.log2 (n + 1)
          · rw [hil]; simpa using hbl
          · exact hbits i hil
        omega
    omega

theorem APInt_sqrt_wf (i : APInt) (h : i.wf) : i.sqrt.wf :=
  lt_of_le_of_lt (Nat.sqrt_le_self i.val) h

theorem APIntCeilSqrt_eq (i : APInt) :
    APIntCeilSqrt i =
      if APIntWidthExtendULT (APIntWidthExtendUSq i.sqrt) i
      then APIntWidthExtendUAdd i.sqrt ⟨1, 1⟩ else i.sqrt := rfl

/-- Value computed by APIntCeilSqrt: the floor square root of the value,
incremented when its square falls short. -/
theorem APIntCeilSqrt_val (i : APInt) (h : i.wf) :
    (APIntCeilSqrt i).val =
      if Nat.sqrt i.val * Nat.sqrt i.val < i.val then Nat.sqrt i.val + 1
      else Nat.sqrt i.val := by
  have hres : i.sqrt.wf := APInt_sqrt_wf i h
  have hone : (⟨1, 1⟩ : APInt).wf := by norm_num [APInt.wf]
  have hsq : (APIntWidthExtendUSq i.sqrt).val = Nat.sqrt i.val * Nat.sqrt i.val :=
    APIntWidthExtendUSq_val i.sqrt hres
  rw [APIntCeilSqrt_eq]
  by_cases hlt : Nat.sqrt i.val * Nat.sqrt i.val < i.val
  · have hcond : APIntWidthExtendULT (APIntWidthExtendUSq i.sqrt) i = true := by
      rw [APIntWidthExtendULT_iff, hsq]; exact hlt
    rw [hcond, if_pos rfl, if_pos hlt,
      APIntWidthExtendUAdd_val i.sqrt ⟨1, 1⟩ hres hone]
    rfl
  · have hcond : APIntWidthExtendULT (APIntWidthExtendUSq i.sqrt) i = false := by
      rw [Bool.eq_false_iff]
      intro hx
      rw [APIntWidthExtendULT_iff, hsq] at hx
      exact hlt hx
    rw [hcond, if_neg (by simp), if_neg hlt]
    rfl

theorem denseCst_foldl_val (cs : List APInt) (accu : APInt) (haccu : accu.wf)
    (hcs : ∀ c ∈ cs, c.wf) :
    (cs.foldl (fun a v => APIntWidthExtendUAdd a (APIntWidthExtendUSq v))
        accu).val
      = accu.val + (cs.map (fun c => c.val * c.val)).sum := by
  induction cs generalizing accu with
  | nil => simp
  | cons c cs ih =>
    simp only [List.foldl_cons, List.map_cons, List.sum_cons]
    rw [ih (APIntWidthExtendUAdd accu (APIntWidthExtendUSq c))
        (APIntWidthExtendUAdd_wf _ _)
        (fun x hx => hcs x (List.mem_cons_of_mem _ hx)),
      APIntWidthExtendUAdd_val accu _ haccu (APIntWidthExtendUSq_wf c),
      APIntWidthExtendUSq_val c (hcs c (List.mem_cons_self _ _))]
    ring

/-- Value computed by denseCstTensorNorm2Sq: the exact sum of the squares of
the constant elements. -/
theorem denseCstTensorNorm2Sq_val (cs : List APInt) (hcs : ∀ c ∈ cs, c.wf) :
    (denseCstTensorNorm2Sq cs).val = (cs.map (fun c => c.val * c.val)).sum := by
  unfold denseCstTensorNorm2Sq
  rw [denseCst_foldl_val cs ⟨1, 0⟩ (by norm_num [APInt.wf]) hcs]
  simp

theorem conservativeIntNorm2Sq_eq (w : Nat) :
    conservativeIntNorm2Sq w
      = APIntWidthExtendUSq ((⟨w + 1, 1⟩ : APInt).shl w) := rfl

/-- Value computed by conservativeIntNorm2Sq: the square of 2 to the width,
not the square of the all-ones value. -/
theorem conservativeIntNorm2Sq_val (w : Nat) :
    (conservativeIntNorm2Sq w).val = 2 ^ w * 2 ^ w := by
  have hshl : ((⟨w + 1, 1⟩ : APInt).shl w).val = 2 ^ w := by
    show (1 <<< w) % 2 ^ (w + 1) = 2 ^ w
    rw [Nat.one_shiftLeft]
    exact Nat.mod_eq_of_lt (Nat.pow_lt_pow_right (by norm_num) (Nat.lt_succ_self w))
  have hwf : ((⟨w + 1, 1⟩ : APInt).shl w).wf := by
    show (1 <<< w) % 2 ^ (w + 1) < 2 ^ (w + 1)
    exact Nat.mod_lt _ (Nat.pos_pow_of_pos _ (by norm_num))
  rw [conservativeIntNorm2Sq_eq, APIntWidthExtendUSq_val _ hwf, hshl]

theorem conservativeIntNorm2Sq_wf (w : Nat) : (conservativeIntNorm2Sq w).wf :=
  APIntWidthExtendUSq_wf _

theorem denseDynTensorNorm2Sq_eq (t : TensorTy) :
    denseDynTensorNorm2Sq t
      = APIntWidthExtendUMul
          (APIntWidthExtendUSq (APInt.getMaxValue t.elemWidth))
          ⟨ceilLog2 (t.numElements + 1),
           t.numElements % 2 ^ ceilLog2 (t.numElements + 1)⟩ := rfl

/-- Value computed by denseDynTensorNorm2Sq: the square of the all-ones value
of the element width, times the number of elements, exactly. -/
theorem denseDynTensorNorm2Sq_val (t : TensorTy)
    (h : t.numElements + 1 < 2 ^ 64) :
    (denseDynTensorNorm2Sq t).val
      = (2 ^ t.elemWidth - 1) * (2 ^ t.elemWidth - 1) * t.numElements := by
  have hmaxwf : (APInt.getMaxValue t.elemWidth).wf := by
    show 2 ^ t.elemWidth - 1 < 2 ^ t.elemWidth
    have := Nat.pos_pow_of_pos t.elemWidth (show 0 < 2 by norm_num)
    omega
  have hn : t.numElements < 2 ^ ceilLog2 (t.numElements + 1) :=
    lt_two_pow_ceilLog2_succ t.numElements h
  have hnmod : t.numElements % 2 ^ ceilLog2 (t.numElements + 1) = t.numElements :=
    Nat.mod_eq_of_lt hn
  have hnwf : (⟨ceilLog2 (t.numElements + 1),
      t.numElements % 2 ^ ceilLog2 (t.numElements + 1)⟩ : APInt).wf := by
    show t.numElements % 2 ^ ceilLog2 (t.numElements + 1) < _
    rw [hnmod]; exact hn
  rw [denseDynTensorNorm2Sq_eq,
    APIntWidthExtendUMul_val _ _ (APIntWidthExtendUSq_wf _) hnwf,
    APIntWidthExtendUSq_val _ hmaxwf]
  show _ * (t.numElements % 2 ^ ceilLog2 (t.numElements + 1)) = _
  rw [hnmod]
  rfl

end HelperLemmas

/-!
Claim theorems.
-/

/-- C1 counterexample: for an add_eint_int with a dynamic 8-bit plaintext
operand, the contribution computed by conservativeIntNorm2Sq is 65536, the
square of 256, whereas the square of the all-ones value maxValue(8) = 255 is
65025; with an encrypted operand bound of 1 the rule yields 65537, not the
65026 the claim predicts. -/
theorem claimC1_counterexample :
    (conservativeIntNorm2Sq 8).val = 65536 ∧
    (APInt.getMaxValue 8).val * (APInt.getMaxValue 8).val = 65025 ∧
    (65536 : Nat) ≠ 65025 ∧
    (getSqMANP_AddEintIntOp (.dyn 8) [some ⟨1, 1⟩, none]).map APInt.val
      = some 65537 ∧
    (65537 : Nat) ≠ 65026 := by
  refine ⟨by decide, by decide, by decide, ?_, by decide⟩
  decide

/-- C1 amended: for every add_eint_int, sub_int_eint or mul_eint_int whose
plaintext integer operand is dynamic with bit width w, the squared-norm
contribution of that operand is the exact square of 2 to the w (one more than
the all-ones value), so the rules give 4 to the w plus, respectively times,
the encrypted operand bound. -/
theorem claimC1_amended (w : Nat) (e : APInt) (x : Option APInt) (he : e.wf) :
    (conservativeIntNorm2Sq w).val = 2 ^ w * 2 ^ w ∧
    (getSqMANP_AddEintIntOp (.dyn w) [some e, x]).map APInt.val
      = some (2 ^ w * 2 ^ w + e.val) ∧
    (getSqMANP_SubIntEintOp (.dyn w) [x, some e]).map APInt.val
      = some (2 ^ w * 2 ^ w + e.val) ∧
    (getSqMANP_MulEintIntOp (.dyn w) [some e, x]).map APInt.val
      = some (2 ^ w * 2 ^ w * e.val) := by
  refine ⟨conservativeIntNorm2Sq_val w, ?_, ?_, ?_⟩
  · show some (APIntWidthExtendUAdd (conservativeIntNorm2Sq w) e).val = _
    rw [APIntWidthExtendUAdd_val _ _ (conservativeIntNorm2Sq_wf w) he,
      conservativeIntNorm2Sq_val w]
  · show some (APIntWidthExtendUAdd (conservativeIntNorm2Sq w) e).val = _
    rw [APIntWidthExtendUAdd_val _ _ (conservativeIntNorm2Sq_wf w) he,
      conservativeIntNorm2Sq_val w]
  · show some (APIntWidthExtendUMul (conservativeIntNorm2Sq w) e).val = _
    rw [APIntWidthExtendUMul_val _ _ (conservativeIntNorm2Sq_wf w) he,
      conservativeIntNorm2Sq_val w]

/-- C1 amended witness at width 3 with encrypted bound 1: contribution 64,
addition and subtraction give 65, multiplication gives 64. -/
theorem claimC1_amended_witness :
    (⟨1, 1⟩ : APInt).wf ∧
    ((conservativeIntNorm2Sq 3).val = 2 ^ 3 * 2 ^ 3 ∧
     (getSqMANP_AddEintIntOp (.dyn 3) [some ⟨1, 1⟩, none]).map APInt.val
       = some (2 ^ 3 * 2 ^ 3 + (⟨1, 1⟩ : APInt).val) ∧
     (getSqMANP_SubIntEintOp (.dyn 3) [none, some ⟨1, 1⟩]).map APInt.val
       = some (2 ^ 3 * 2 ^ 3 + (⟨1, 1⟩ : APInt).val) ∧
     (getSqMANP_MulEintIntOp (.dyn 3) [some ⟨1, 1⟩, none]).map APInt.val
       = some (2 ^ 3 * 2 ^ 3 * (⟨1, 1⟩ : APInt).val)) :=
  ⟨by decide, claimC1_amended 3 ⟨1, 1⟩ none (by decide)⟩

/-- C2: for every well-formed APInt, the value of APIntCeilSqrt squared is at
least the argument value, the predecessor squared is strictly below a positive
argument, and the ceiling square root of zero is zero, so APIntCeilSqrt
computes the smallest r with r squared at least the argument. -/
theorem claimC2_ceilSqrt (i : APInt) (h : i.wf) :
    i.val ≤ (APIntCeilSqrt i).val * (APIntCeilSqrt i).val ∧
    (0 < i.val →
      ((APIntCeilSqrt i).val - 1) * ((APIntCeilSqrt i).val - 1) < i.val) ∧
    (i.val = 0 → (APIntCeilSqrt i).val = 0) := by
  rw [APIntCeilSqrt_val i h]
  by_cases hlt : Nat.sqrt i.val * Nat.sqrt i.val < i.val
  · rw [if_pos hlt]
    refine ⟨?_, fun _ => by simpa using hlt, fun h0 => ?_⟩
    · have hs := Nat.lt_succ_sqrt i.val
      rw [Nat.succ_eq_add_one] at hs
      omega
    · rw [h0] at hlt
      simp at hlt
  · rw [if_neg hlt]
    push_neg at hlt
    refine ⟨hlt, fun hpos => ?_, fun h0 => by rw [h0]; rfl⟩
    by_contra hge
    push_neg at hge
    have hmono : Nat.sqrt i.val ≤ Nat.sqrt ((Nat.sqrt i.val - 1) * (Nat.sqrt i.val - 1)) :=
      Nat.sqrt_le_sqrt hge
    rw [Nat.sqrt_eq] at hmono
    have hspos : 0 < Nat.sqrt i.val := Nat.sqrt_pos.mpr hpos
    omega

/-- C2 witness at value 14 in 8 bits: the ceiling square root value 4
satisfies the three properties. -/
theorem claimC2_ceilSqrt_witness :
    (⟨8, 14⟩ : APInt).wf ∧
    ((⟨8, 14⟩ : APInt).val
        ≤ (APIntCeilSqrt ⟨8, 14⟩).val * (APIntCeilSqrt ⟨8, 14⟩).val ∧
     (0 < (⟨8, 14⟩ : APInt).val →
       ((APIntCeilSqrt ⟨8, 14⟩).val - 1) * ((APIntCeilSqrt ⟨8, 14⟩).val - 1)
         < (⟨8, 14⟩ : APInt).val) ∧
     ((⟨8, 14⟩ : APInt).val = 0 → (APIntCeilSqrt ⟨8, 14⟩).val = 0)) :=
  ⟨by decide, claimC2_ceilSqrt ⟨8, 14⟩ (by decide)⟩

/-- C3: a dot product whose plaintext vector is a dense compile-time constant
gets as squared bound exactly the sum of the squares of the constant
elements, whatever the operand lattice values are; for the vector [1, 2, 3]
the squared bound is 14 and its ceiling square root, the MANP, is 4. -/
theorem claimC3_dotConstant (cs : List APInt) (manps : List (Option APInt))
    (hcs : ∀ c ∈ cs, c.wf) :
    (getSqMANP_Dot true (.cst cs) manps).map APInt.val
      = some ((cs.map fun c => c.val * c.val).sum) ∧
    (denseCstTensorNorm2Sq [⟨8, 1⟩, ⟨8, 2⟩, ⟨8, 3⟩]).val = 14 ∧
    (APIntCeilSqrt (denseCstTensorNorm2Sq [⟨8, 1⟩, ⟨8, 2⟩, ⟨8, 3⟩])).val = 4 := by
  have hwf : (denseCstTensorNorm2Sq [⟨8, 1⟩, ⟨8, 2⟩, ⟨8, 3⟩]).wf := by decide
  have hval : (denseCstTensorNorm2Sq [⟨8, 1⟩, ⟨8, 2⟩, ⟨8, 3⟩]).val = 14 := by
    decide
  have hsqrt : Nat.sqrt 14 = 3 := (Nat.eq_sqrt.mpr (by norm_num)).symm
  refine ⟨?_, hval, ?_⟩
  · show some (denseCstTensorNorm2Sq cs).val = _
    rw [denseCstTensorNorm2Sq_val cs hcs]
  · rw [APIntCeilSqrt_val _ hwf, hval, hsqrt]
    norm_num

/-- C3 witness at the constant vector [1, 2, 3] of 8-bit elements. -/
theorem claimC3_dotConstant_witness :
    (∀ c ∈ ([⟨8, 1⟩, ⟨8, 2⟩, ⟨8, 3⟩] : List APInt), c.wf) ∧
    ((getSqMANP_Dot true (.cst [⟨8, 1⟩, ⟨8, 2⟩, ⟨8, 3⟩]) []).map APInt.val
        = some ((([⟨8, 1⟩, ⟨8, 2⟩, ⟨8, 3⟩] : List APInt).map
            fun c => c.val * c.val).sum) ∧
     (denseCstTensorNorm2Sq [⟨8, 1⟩, ⟨8, 2⟩, ⟨8, 3⟩]).val = 14 ∧
     (APIntCeilSqrt (denseCstTensorNorm2Sq [⟨8, 1⟩, ⟨8, 2⟩, ⟨8, 3⟩])).val = 4) :=
  ⟨by decide, claimC3_dotConstant [⟨8, 1⟩, ⟨8, 2⟩, ⟨8, 3⟩] [] (by decide)⟩

/-- C4: a dot product whose plaintext vector is dynamic, with n elements of
bit width w, gets as squared bound exactly n times the square of the all-ones
value of width w; for 4 elements of width 8 this is 4 times 255 squared,
260100, whose ceiling square root is 510. -/
theorem claimC4_dotDynamic (t : TensorTy) (manps : List (Option APInt))
    (h : t.numElements + 1 < 2 ^ 64) :
    (getSqMANP_Dot true (.dyn t) manps).map APInt.val
      = some (t.numElements * ((2 ^ t.elemWidth - 1) * (2 ^ t.elemWidth - 1))) ∧
    (denseDynTensorNorm2Sq ⟨8, 4⟩).val = 260100 ∧
    (APIntCeilSqrt (denseDynTensorNorm2Sq ⟨8, 4⟩)).val = 510 := by
  have hwf : (denseDynTensorNorm2Sq ⟨8, 4⟩).wf := by
    rw [denseDynTensorNorm2Sq_eq]
    exact APIntWidthExtendUMul_wf _ _
  have hval : (denseDynTensorNorm2Sq ⟨8, 4⟩).val = 260100 := by
    rw [denseDynTensorNorm2Sq_val ⟨8, 4⟩ (by decide)]
    decide
  have hsqrt : Nat.sqrt 260100 = 510 := (Nat.eq_sqrt.mpr (by norm_num)).symm
  refine ⟨?_, hval, ?_⟩
  · show some (denseDynTensorNorm2Sq t).val = _
    rw [denseDynTensorNorm2Sq_val t h, Nat.mul_comm]
  · rw [APIntCeilSqrt_val _ hwf, hval, hsqrt]
    norm_num

/-- C4 witness at a dynamic vector of 4 elements of bit width 8. -/
theorem claimC4_dotDynamic_witness :
    (4 : Nat) + 1 < 2 ^ 64 ∧
    ((getSqMANP_Dot true (.dyn ⟨8, 4⟩) []).map APInt.val
        = some (4 * ((2 ^ 8 - 1) * (2 ^ 8 - 1))) ∧
     (denseDynTensorNorm2Sq ⟨8, 4⟩).val = 260100 ∧
     (APIntCeilSqrt (denseDynTensorNorm2Sq ⟨8, 4⟩)).val = 510) :=
  ⟨by decide, claimC4_dotDynamic ⟨8, 4⟩ [] (by decide)⟩

/-- C5: the addition of two encrypted values whose operand lattice bounds are
p and q gets as squared bound exactly the sum of the two values, with no
truncation. -/
theorem claimC5_addEint (p q : APInt) (hp : p.wf) (hq : q.wf) :
    (getSqMANP_AddEintOp [some p, some q]).map APInt.val
      = some (p.val + q.val) := by
  show some (APIntWidthExtendUAdd p q).val = _
  rw [APIntWidthExtendUAdd_val p q hp hq]

/-- C5 witness at operand bounds 200 and 100 in 8 bits: the squared bound is
exactly 300 although 300 exceeds the operand widths. -/
theorem claimC5_addEint_witness :
    (⟨8, 200⟩ : APInt).wf ∧ (⟨8, 100⟩ : APInt).wf ∧
    (getSqMANP_AddEintOp [some ⟨8, 200⟩, some ⟨8, 100⟩]).map APInt.val
      = some (200 + 100) :=
  ⟨by decide, by decide, claimC5_addEint ⟨8, 200⟩ ⟨8, 100⟩ (by decide) (by decide)⟩

/-- C6: the multiplication of an encrypted value with squared bound p by a
compile-time constant integer k gets as squared bound exactly the square of k
times p. -/
theorem claimC6_mulEintIntConstant (k p : APInt) (x : Option APInt)
    (hk : k.wf) (hp : p.wf) :
    (getSqMANP_MulEintIntOp (.cst k) [some p, x]).map APInt.val
      = some (k.val * k.val * p.val) := by
  show some (APIntWidthExtendUMul (APIntWidthExtendUSq k) p).val = _
  rw [APIntWidthExtendUMul_val _ p (APIntWidthExtendUSq_wf k) hp,
    APIntWidthExtendUSq_val k hk]

/-- C6 witness at constant 5 and operand bound 26 in 8 bits. -/
theorem claimC6_mulEintIntConstant_witness :
    (⟨8, 5⟩ : APInt).wf ∧ (⟨8, 26⟩ : APInt).wf ∧
    (getSqMANP_MulEintIntOp (.cst ⟨8, 5⟩) [some ⟨8, 26⟩, none]).map APInt.val
      = some (5 * 5 * 26) :=
  ⟨by decide, by decide,
   claimC6_mulEintIntConstant ⟨8, 5⟩ ⟨8, 26⟩ none (by decide) (by decide)⟩

/-- C7: an HLFHE-dialect operation whose kind matches no rule makes
visitOperation abort with a diagnostic carrying that operation, producing no
MANP entry for it; moreover no HLFHE-dialect operation is ever treated as a
silently skipped dummy. -/
theorem claimC7_unsupportedAborts (name : String)
    (operands : List (Option APInt)) (o : HLFHEOp) :
    visitOperation (.hlfhe (.unsupported name)) operands
      = .unsupportedAbort name ∧
    (visitOperation (.hlfhe o) operands).isDummy = false := by
  refine ⟨rfl, ?_⟩
  cases o <;> simp only [visitOperation] <;> (try split) <;> rfl

/-- C8: every block argument of encrypted type (scalar or tensor of encrypted
scalars) is seeded with the squared norm bound one, whose ceiling square root,
the MANP, is also one; every other value is seeded with no bound. -/
theorem claimC8_blockArgSeed (v : MlirValue) :
    ((v.isBlockArgument && isEncryptedValueType v.type) = true →
      getPessimisticValueState v = some ⟨1, 1⟩ ∧
      (APIntCeilSqrt ⟨1, 1⟩).val = 1) ∧
    ((v.isBlockArgument && isEncryptedValueType v.type) = false →
      getPessimisticValueState v = none) := by
  have hceil : (APIntCeilSqrt ⟨1, 1⟩).val = 1 := by
    have hwf : (⟨1, 1⟩ : APInt).wf := by decide
    have hsqrt : Nat.sqrt 1 = 1 := Nat.sqrt_one
    rw [APIntCeilSqrt_val _ hwf]
    show (if Nat.sqrt 1 * Nat.sqrt 1 < 1 then Nat.sqrt 1 + 1 else Nat.sqrt 1) = 1
    rw [hsqrt]
    norm_num
  constructor
  · intro h
    refine ⟨?_, hceil⟩
    unfold getPessimisticValueState
    rw [h]
    rfl
  · intro h
    unfold getPessimisticValueState
    rw [h]
    rfl

/-- C8 witness: an encrypted scalar block argument and a tensor-of-encrypted
block argument are seeded with bound one; a non-block-argument encrypted
value and a plaintext-integer block argument carry no bound. -/
theorem claimC8_blockArgSeed_witness :
    getPessimisticValueState ⟨true, .encryptedInteger 7⟩ = some ⟨1, 1⟩ ∧
    getPessimisticValueState ⟨true, .tensor (.encryptedInteger 5)⟩
      = some ⟨1, 1⟩ ∧
    getPessimisticValueState ⟨false, .encryptedInteger 7⟩ = none ∧
    getPessimisticValueState ⟨true, .integer 8⟩ = none :=
  ⟨((claimC8_blockArgSeed ⟨true, .encryptedInteger 7⟩).1 (by decide)).1,
   ((claimC8_blockArgSeed ⟨true, .tensor (.encryptedInteger 5)⟩).1
     (by decide)).1,
   (claimC8_blockArgSeed ⟨false, .encryptedInteger 7⟩).2 (by decide),
   (claimC8_blockArgSeed ⟨true, .integer 8⟩).2 (by decide)⟩

/-- C9: on well-formed operands the width-extending addition and
multiplication are exact and commutative, the sum carried in one bit more than
the wider operand width and the product in the sum of the operand widths. -/
theorem claimC9_exactArithmetic (a b : APInt) (ha : a.wf) (hb : b.wf) :
    (APIntWidthExtendUAdd a b).val = a.val + b.val ∧
    (APIntWidthExtendUAdd a b).width = max a.width b.width + 1 ∧
    APIntWidthExtendUAdd a b = APIntWidthExtendUAdd b a ∧
    (APIntWidthExtendUMul a b).val = a.val * b.val ∧
    (APIntWidthExtendUMul a b).width = a.width + b.width ∧
    APIntWidthExtendUMul a b = APIntWidthExtendUMul b a := by
  refine ⟨APIntWidthExtendUAdd_val a b ha hb, rfl, ?_,
    APIntWidthExtendUMul_val a b ha hb, rfl, ?_⟩
  · show APInt.mk (max a.width b.width + 1) ((a.val + b.val) % 2 ^ (max a.width b.width + 1))
      = APInt.mk (max b.width a.width + 1) ((b.val + a.val) % 2 ^ (max b.width a.width + 1))
    rw [Nat.max_comm, Nat.add_comm a.val b.val]
  · show APInt.mk (a.width + b.width) ((a.val * b.val) % 2 ^ (a.width + b.width))
      = APInt.mk (b.width + a.width) ((b.val * a.val) % 2 ^ (b.width + a.width))
    rw [Nat.add_comm a.width b.width, Nat.mul_comm a.val b.val]

/-- C9 witness at a 4-bit 9 and an 8-bit 200: the sum 209 lives in 9 bits and
the product 1800 in 12 bits, both exact and commutative. -/
theorem claimC9_exactArithmetic_witness :
    (⟨4, 9⟩ : APInt).wf ∧ (⟨8, 200⟩ : APInt).wf ∧
    ((APIntWidthExtendUAdd ⟨4, 9⟩ ⟨8, 200⟩).val = 9 + 200 ∧
     (APIntWidthExtendUAdd ⟨4, 9⟩ ⟨8, 200⟩).width = max 4 8 + 1 ∧
     APIntWidthExtendUAdd ⟨4, 9⟩ ⟨8, 200⟩ = APIntWidthExtendUAdd ⟨8, 200⟩ ⟨4, 9⟩ ∧
     (APIntWidthExtendUMul ⟨4, 9⟩ ⟨8, 200⟩).val = 9 * 200 ∧
     (APIntWidthExtendUMul ⟨4, 9⟩ ⟨8, 200⟩).width = 4 + 8 ∧
     APIntWidthExtendUMul ⟨4, 9⟩ ⟨8, 200⟩ = APIntWidthExtendUMul ⟨8, 200⟩ ⟨4, 9⟩) :=
  ⟨by decide, by decide,
   claimC9_exactArithmetic ⟨4, 9⟩ ⟨8, 200⟩ (by decide) (by decide)⟩

/-- C10: the dot rule is only defined when the encrypted vector operand is a
block argument: when it is produced by another operation the rule hits a
failed assertion and visitOperation computes no bound. -/
theorem claimC10_dotRequiresBlockArg (pt : TensorOperand)
    (operands : List (Option APInt)) :
    getSqMANP_Dot false pt operands = none ∧
    visitOperation (.hlfhe (.dot false pt)) operands = .assertFailure := by
  exact ⟨rfl, rfl⟩
